import Mathlib

/-!
Shallow embedding of the geometric projection and route-assembly pipeline of
the UnderGround repository (src/depth.js, src/main.js): depth resolution,
branch extraction, arc-length parameterization, offset-curve construction,
the shared station registry, and the per-train step of the train motion
simulator.  Numeric values carried as IEEE doubles in the source are modelled
as exact rationals, or as reals where square roots and trigonometry occur.
-/

namespace Underground

/-- Association-list lookup, modelling JS `Map.has`/`Map.get` (and the `in`
operator on a plain object): the value of the first pair whose key matches,
if any. -/
def lookupAssoc (l : List (String × ℚ)) (k : String) : Option ℚ :=
  (l.find? (fun p => p.1 == k)).map (fun p => p.2)

/-- `LINE_DEPTH_M` from src/depth.js: heuristic depths in metres below ground
for each line id. -/
def LINE_DEPTH_M : List (String × ℚ) :=
  [("circle", 8), ("district", 10), ("metropolitan", 10), ("hammersmith-city", 9),
   ("bakerloo", 25), ("central", 28), ("jubilee", 32), ("northern", 30),
   ("piccadilly", 30), ("victoria", 33), ("waterloo-city", 35)]

/-- `depthForStation` from src/depth.js.  JS truthiness of the two id strings
is modelled as an empty-string test (the only falsy string); the `anchors`
map argument is modelled as an association list (callers always pass a Map). -/
def depthForStation (naptanId lineId : String) (anchors : List (String × ℚ)) : ℚ :=
  match (if naptanId = "" then none else lookupAssoc anchors naptanId) with
  | some d => d
  | none =>
    match (if lineId = "" then none else lookupAssoc LINE_DEPTH_M lineId) with
    | some h => h
    | none => 18

/-- Modelled from the spec: helper of `buildDepthInterpolator`, which is
imported by src/main.js from ./depth.js but not defined in the repository's
src/depth.js.  The stations of a branch that carry a curated anchor, as pairs
(cumulative path-length position along the branch, anchor depth), in branch
order. -/
def anchoredStops (stops : List (String × ℚ)) (anchors : List (String × ℚ)) :
    List (ℚ × ℚ) :=
  stops.filterMap (fun sp => (lookupAssoc anchors sp.1).map (fun d => (sp.2, d)))

/-- Modelled from the spec: the anchored station at or before path position
`p` that is nearest to it (greatest position not exceeding `p`). -/
def nearestBelow (anch : List (ℚ × ℚ)) (p : ℚ) : Option (ℚ × ℚ) :=
  anch.foldl (fun acc a =>
    if a.1 ≤ p then
      match acc with
      | none => some a
      | some b => if b.1 ≤ a.1 then some a else some b
    else acc) none

/-- Modelled from the spec: the anchored station at or after path position
`p` that is nearest to it (least position not below `p`). -/
def nearestAbove (anch : List (ℚ × ℚ)) (p : ℚ) : Option (ℚ × ℚ) :=
  anch.foldl (fun acc a =>
    if p ≤ a.1 then
      match acc with
      | none => some a
      | some b => if a.1 ≤ b.1 then some a else some b
    else acc) none

/-- Modelled from the spec: `buildDepthInterpolator` is imported by
src/main.js from ./depth.js, but the repository's src/depth.js does not
define it; this definition follows spec section 4.2.  A branch is given as a
list of (station id, cumulative station-to-station path-length position)
pairs, and the station depth is resolved by preferring: the station's own
curated anchor; otherwise linear interpolation between the two nearest
anchored stations of the branch surrounding the query position,
distance-weighted by cumulative path length; a station before the first or
after the last anchor uses the nearest anchor's value directly; `none` when
no anchor exists on the branch (the caller then falls back to
`depthForStation`). -/
def buildDepthInterpolator (stops anchors : List (String × ℚ))
    (naptanId : String) : Option ℚ :=
  match lookupAssoc anchors naptanId with
  | some d => some d
  | none =>
    match lookupAssoc stops naptanId with
    | none => none
    | some p =>
      let anch := anchoredStops stops anchors
      match nearestBelow anch p, nearestAbove anch p with
      | some lo, some hi =>
        if lo.1 < hi.1 then
          some (lo.2 + (p - lo.1) / (hi.1 - lo.1) * (hi.2 - lo.2))
        else some lo.2
      | some lo, none => some lo.2
      | none, some hi => some hi.2
      | none, none => none

/-- Per-train state, from the `train.userData` record built by `makeTrain` in
src/main.js (fields `t`, `dir`, `cruiseMps`, `curveLengthM`, `dwellSec`,
`_pausedLeft`, `nextStationIndex`, `stationUs`).  The bound curve object is
omitted: the rendered position is `curve.getPointAt(t)`, a pure function of
`t`. -/
structure TrainState where
  t : ℚ
  dir : ℤ
  cruiseMps : ℚ
  curveLengthM : ℚ
  dwellSec : ℚ
  pausedLeft : ℚ
  nextStationIndex : ℕ
  stationUs : List ℚ
deriving DecidableEq

/-- The station-arrival test of `tick` in src/main.js (the `crossed`
expression): direction-aware comparison of the previous and new curve
parameters against the target station parameter. -/
def stationCrossed (dir : ℤ) (prevU newU targetU : ℚ) : Bool :=
  if dir = 1 then
    (decide (prevU ≤ targetU) && decide (targetU ≤ newU)) ||
    (decide (newU < prevU) && (decide (targetU ≤ newU) || decide (prevU ≤ targetU)))
  else
    (decide (targetU ≤ prevU) && decide (newU ≤ targetU)) ||
    (decide (prevU < newU) && (decide (newU ≤ targetU) || decide (targetU ≤ prevU)))

/-- The per-tick parameter advance of `tick` in src/main.js:
`(cruiseMps * simDt) / Math.max(1e-6, curveLengthM)` (the float literal 1e-6
modelled as the exact rational). -/
def duOf (simDt : ℚ) (tr : TrainState) : ℚ :=
  tr.cruiseMps * simDt / max (1/1000000) tr.curveLengthM

/-- The wrap step of `tick` in src/main.js:
`if (u >= 1) u -= 1; if (u < 0) u += 1;`. -/
def wrapU (u : ℚ) : ℚ :=
  let u1 := if 1 ≤ u then u - 1 else u
  if u1 < 0 then u1 + 1 else u1

/-- One simulation tick for a single train, from the per-train loop body of
`tick` in src/main.js: a dwelling train only decrements its remaining dwell
(clamped at 0); a cruising train advances `t` by the wrapped parameter step
and, when the station-arrival test fires, snaps to the target station
parameter, starts a dwell, and advances the next-station index (direction
dependent, modulo the station count; the JS expression `idx - 1 + len` is
written `idx + len - 1`, identical on every reachable index). -/
def tickTrain (simDt : ℚ) (tr : TrainState) : TrainState :=
  if 0 < tr.pausedLeft then
    { tr with pausedLeft := max 0 (tr.pausedLeft - simDt) }
  else
    if 0 < tr.stationUs.length then
      if stationCrossed tr.dir tr.t (wrapU (tr.t + (tr.dir : ℚ) * duOf simDt tr))
          (tr.stationUs.getD tr.nextStationIndex 0) then
        { tr with
          t := tr.stationUs.getD tr.nextStationIndex 0,
          pausedLeft := tr.dwellSec,
          nextStationIndex :=
            if tr.dir = 1 then (tr.nextStationIndex + 1) % tr.stationUs.length
            else (tr.nextStationIndex + tr.stationUs.length - 1) % tr.stationUs.length }
      else { tr with t := wrapU (tr.t + (tr.dir : ℚ) * duOf simDt tr) }
    else { tr with t := wrapU (tr.t + (tr.dir : ℚ) * duOf simDt tr) }

/-- The initial curve parameter of `makeTrain` in src/main.js:
`(Math.random() + phase) % 1`; for a nonnegative operand the JS remainder
equals subtraction of the floor. -/
def makeTrainInitT (r phase : ℚ) : ℚ := (r + phase) - ⌊r + phase⌋

/-- Concrete train for the C3 counterexample: cruising at u = 49/50 toward
the final station anchor at u = 1 (the last entry of the sorted
arc-length table is exactly 1). -/
def trC3 : TrainState :=
  { t := 49/50, dir := 1, cruiseMps := 1/20, curveLengthM := 1, dwellSec := 22,
    pausedLeft := 0, nextStationIndex := 1, stationUs := [0, 1] }

/-- Concrete train for C4: u = 49/50, advance 1/20 per tick, next target at
u = 1/100 beyond the 0/1 seam. -/
def trC4 : TrainState :=
  { t := 49/50, dir := 1, cruiseMps := 1/20, curveLengthM := 1, dwellSec := 22,
    pausedLeft := 0, nextStationIndex := 0, stationUs := [1/100, 1/2] }

/-- Concrete dwelling train for the C5 witness. -/
def trC5 : TrainState :=
  { t := 1/4, dir := 1, cruiseMps := 1, curveLengthM := 10, dwellSec := 22,
    pausedLeft := 5, nextStationIndex := 0, stationUs := [0, 1] }

/-- Concrete cruising train for the C3 witness. -/
def trC3w : TrainState :=
  { t := 1/2, dir := 1, cruiseMps := 1, curveLengthM := 10, dwellSec := 22,
    pausedLeft := 0, nextStationIndex := 0, stationUs := [0, 1/2, 1] }

/-- A stop record of a directional route sequence, as consumed from the TfL
data (`{id, name, lat, lon}`). -/
structure StopPoint where
  id : String
  name : String
  lat : ℚ
  lon : ℚ
deriving DecidableEq

/-- A raw directional route sequence: a direction tag and an optional ordered
stop list (`stopPoint` may be absent in malformed data, which the source
guards with optional chaining). -/
structure RouteSeq where
  direction : String
  stopPoint : Option (List StopPoint)
deriving DecidableEq

/-- The stop count of a sequence: JS `s.stopPoint?.length`, with a missing
list counting as 0 (matching `|| 0` / `undefined > 0 = false` at every use
site). -/
def seqLen (s : RouteSeq) : ℕ :=
  match s.stopPoint with
  | some l => l.length
  | none => 0

/-- JS `best?.stopPoint?.length || 0` applied to the reduce accumulator. -/
def optLen (o : Option RouteSeq) : ℕ :=
  match o with
  | some b => seqLen b
  | none => 0

/-- The reducer of `extractBranches` in src/main.js:
`(best, cur) => (cur.stopPoint.length > (best?.stopPoint?.length || 0)) ? cur : best`
with initial accumulator null.  (`cur.stopPoint.length` is only evaluated on
sequences that passed the nonempty filter, where it equals `seqLen cur`.) -/
def pickLonger (best : Option RouteSeq) (cur : RouteSeq) : Option RouteSeq :=
  if optLen best < seqLen cur then some cur else best

/-- First-occurrence deduplication by stop id, from the `seen`-set loop of
`extractBranches` in src/main.js. -/
def dedupById (stops : List StopPoint) : List StopPoint :=
  (stops.foldl
    (fun acc sp => if acc.1.contains sp.id then acc else (sp.id :: acc.1, acc.2 ++ [sp]))
    (([], []) : List String × List StopPoint)).2

/-- `extractBranches` from src/main.js: keep the sequences tagged `inbound`
as branches (those with at least 2 stops), deduplicating the combined stop
list; if there is no inbound sequence at all, consider every sequence with a
nonempty stop list and return the single longest one as the sole branch, or
the empty result when none qualifies. -/
def extractBranches (sequences : List RouteSeq) :
    List (List StopPoint) × List StopPoint :=
  let inbound := sequences.filter (fun s => s.direction == "inbound")
  if inbound.isEmpty then
    let all := sequences.filter (fun s => decide (0 < seqLen s))
    if all.isEmpty then ([], [])
    else
      let longest := all.foldl pickLonger none
      let sps := (longest.bind RouteSeq.stopPoint).getD []
      ([sps], sps)
  else
    let branches := (inbound.map (fun s => s.stopPoint.getD [])).filter
      (fun arr => decide (2 ≤ arr.length))
    (branches, dedupById branches.flatten)

/-- Concrete stops for the C2 counterexample. -/
def spA : StopPoint := ⟨"A", "Alpha", 0, 0⟩

/-- Concrete stops for the C2 counterexample. -/
def spB : StopPoint := ⟨"B", "Beta", 1, 0⟩

/-- Concrete stops for the C2 counterexample. -/
def spC : StopPoint := ⟨"C", "Gamma", 2, 0⟩

/-- Concrete stops for the C2 counterexample. -/
def spD : StopPoint := ⟨"D", "Delta", 3, 0⟩

/-- Concrete stops for the C2 counterexample. -/
def spE : StopPoint := ⟨"E", "Epsilon", 4, 0⟩

/-- Two available non-inbound sequences (lengths 2 and 3) for C2. -/
def cexSeqs : List RouteSeq :=
  [⟨"outbound", some [spA, spB]⟩, ⟨"outbound", some [spC, spD, spE]⟩]

/-- The cumulative-distance loop of `stationUsFromPolyline` in src/main.js
(`total += centerPts[i].distanceTo(centerPts[i-1]); cum.push(total)`):
the partial path lengths after the first point, threading the previous point
and the running total.  The point type and its distance function are
parameters; in the program the points are `THREE.Vector3` and the distance is
Euclidean. -/
def cumAux {P : Type} (dist : P → P → ℚ) : P → ℚ → List P → List ℚ
  | _, _, [] => []
  | prev, acc, p :: rest => (acc + dist p prev) :: cumAux dist p (acc + dist p prev) rest

/-- The `cum` array of `stationUsFromPolyline` in src/main.js: starts at
`[0]` and appends one running total per further point. -/
def stationCum {P : Type} (dist : P → P → ℚ) : List P → List ℚ
  | [] => [0]
  | p :: rest => 0 :: cumAux dist p 0 rest

/-- `stationUsFromPolyline` from src/main.js: cumulative distances along the
polyline divided by the total path length, or all zeros when the total is not
positive. -/
def stationUsFromPolyline {P : Type} (dist : P → P → ℚ) (centerPts : List P) :
    List ℚ :=
  let cum := stationCum dist centerPts
  let total := cum.getLastD 0
  if total ≤ 0 then centerPts.map (fun _ => 0) else cum.map (fun d => d / total)

/-- Concrete distance on rational points, for the C8 witness. -/
def qdist (a b : ℚ) : ℚ := |a - b|

/-- A 3-component vector, modelling `THREE.Vector3` with its float
components idealized as reals. -/
@[ext]
structure Vec3 where
  x : ℝ
  y : ℝ
  z : ℝ

/-- The zero vector. -/
noncomputable def vzero : Vec3 := ⟨0, 0, 0⟩

/-- Componentwise vector sum (`THREE.Vector3.add`). -/
noncomputable def vadd (a b : Vec3) : Vec3 := ⟨a.x + b.x, a.y + b.y, a.z + b.z⟩

/-- Componentwise vector difference (`THREE.Vector3.subVectors`). -/
noncomputable def vsub (a b : Vec3) : Vec3 := ⟨a.x - b.x, a.y - b.y, a.z - b.z⟩

/-- Scalar multiple (`THREE.Vector3.multiplyScalar` / `addScaledVector`). -/
noncomputable def vsmul (c : ℝ) (v : Vec3) : Vec3 := ⟨c * v.x, c * v.y, c * v.z⟩

/-- Dot product (`THREE.Vector3.dot`). -/
noncomputable def vdot (a b : Vec3) : ℝ := a.x * b.x + a.y * b.y + a.z * b.z

/-- Euclidean length (`THREE.Vector3.length`). -/
noncomputable def vlen (v : Vec3) : ℝ := Real.sqrt (v.x^2 + v.y^2 + v.z^2)

/-- `THREE.Vector3.normalize`: `divideScalar(length() || 1)` — division by
the length with a zero-length guard, so the zero vector normalizes to
itself. -/
noncomputable def vnormalize (v : Vec3) : Vec3 :=
  vsmul (1 / (if vlen v = 0 then 1 else vlen v)) v

/-- The neighbor difference `pNext - pPrev` of
`buildOffsetCurvesFromCenterline` in src/main.js, with the neighbor indices
clamped at the ends (`Math.max(0, i-1)` is ℕ subtraction `i - 1`). -/
noncomputable def rawTangentAt (pts : List Vec3) (i : ℕ) : Vec3 :=
  vsub (pts.getD (min (pts.length - 1) (i + 1)) vzero) (pts.getD (i - 1) vzero)

/-- The tangent estimate of `buildOffsetCurvesFromCenterline`: the neighbor
difference with its vertical component zeroed (`tangent.y = 0`), then
normalized. -/
noncomputable def tangentAt (pts : List Vec3) (i : ℕ) : Vec3 :=
  vnormalize ⟨(rawTangentAt pts i).x, 0, (rawTangentAt pts i).z⟩

/-- The horizontal-plane perpendicular of `buildOffsetCurvesFromCenterline`:
`(x, z) -> (-z, x)` applied to the tangent, normalized. -/
noncomputable def normalAt (pts : List Vec3) (i : ℕ) : Vec3 :=
  vnormalize ⟨-(tangentAt pts i).z, 0, (tangentAt pts i).x⟩

/-- The left offset control points of `buildOffsetCurvesFromCenterline`:
each centerline point displaced by `+halfSpacing` along its normal. -/
noncomputable def leftOffsetPoints (pts : List Vec3) (halfSpacing : ℝ) : List Vec3 :=
  (List.range pts.length).map
    (fun i => vadd (pts.getD i vzero) (vsmul halfSpacing (normalAt pts i)))

/-- The right offset control points of `buildOffsetCurvesFromCenterline`:
each centerline point displaced by `-halfSpacing` along its normal. -/
noncomputable def rightOffsetPoints (pts : List Vec3) (halfSpacing : ℝ) : List Vec3 :=
  (List.range pts.length).map
    (fun i => vadd (pts.getD i vzero) (vsmul (-halfSpacing) (normalAt pts i)))

/-- `buildOffsetCurvesFromCenterline` from src/main.js, as the pair of offset
control-point polylines; the `CatmullRomCurve3` fit through each list is
performed by the rendering collaborator. -/
noncomputable def buildOffsetCurvesFromCenterline (pts : List Vec3)
    (halfSpacing : ℝ) : List Vec3 × List Vec3 :=
  (leftOffsetPoints pts halfSpacing, rightOffsetPoints pts halfSpacing)

/-- Concrete centerline for the C9 witness: one horizontal step with
vertical variation. -/
noncomputable def ptsC9 : List Vec3 := [⟨0, 0, 0⟩, ⟨1, 2, 0⟩]

/-- Concrete centerline for the C10 witness: a purely vertical step, whose
horizontal tangent vanishes. -/
noncomputable def ptsC10 : List Vec3 := [⟨0, 0, 0⟩, ⟨0, 5, 0⟩]

/-- A stored station-registry entry, from `sharedStationPositions` in
src/main.js (`{x, z, lat, lon}`). -/
structure StationEntry where
  x : ℝ
  z : ℝ
  lat : ℝ
  lon : ℝ

/-- The projection origin latitude (`ORIGIN.lat` in src/main.js). -/
noncomputable def ORIGIN_LAT : ℝ := 51.5074

/-- The projection origin longitude (`ORIGIN.lon` in src/main.js). -/
noncomputable def ORIGIN_LON : ℝ := -0.1278

/-- `METRES_PER_DEG_LAT` from src/main.js. -/
noncomputable def METRES_PER_DEG_LAT : ℝ := 111320

/-- `metresPerDegLonAt` from src/main.js: cosine-corrected metres per degree
of longitude. -/
noncomputable def metresPerDegLonAt (latDeg : ℝ) : ℝ :=
  111320 * Real.cos (latDeg * Real.pi / 180)

/-- `llToXZ` from src/main.js: local tangent-plane projection to scene
metres, with the z axis inverted. -/
noncomputable def llToXZ (horizontalScale lat lon : ℝ) : ℝ × ℝ :=
  let dLon := lon - ORIGIN_LON
  let dLat := lat - ORIGIN_LAT
  let x := dLon * metresPerDegLonAt ORIGIN_LAT * horizontalScale
  let z := dLat * METRES_PER_DEG_LAT * horizontalScale
  (x, -z)

/-- The shared station registry map (`sharedStationPositions`), modelled as
an association list with first-match lookup. -/
def Registry : Type := List (String × StationEntry)

/-- JS `Map.get` on the registry. -/
def lookupReg (reg : Registry) (k : String) : Option StationEntry :=
  ((reg : List (String × StationEntry)).find? (fun p => p.1 == k)).map (fun p => p.2)

/-- `registerStationPosition` from src/main.js, with the registry state made
explicit: a falsy (empty) id returns without registering; an already
registered key returns the canonical stored entry; otherwise the projected
position is computed, stored, and returned. -/
noncomputable def registerStationPosition (horizontalScale : ℝ) (reg : Registry)
    (naptanId : String) (lat lon : ℝ) : Registry × Option StationEntry :=
  if naptanId = "" then (reg, none)
  else
    match lookupReg reg naptanId.trim with
    | some e => (reg, some e)
    | none =>
      ((naptanId.trim,
          ⟨(llToXZ horizontalScale lat lon).1, (llToXZ horizontalScale lat lon).2,
            lat, lon⟩) :: reg,
        some ⟨(llToXZ horizontalScale lat lon).1, (llToXZ horizontalScale lat lon).2,
          lat, lon⟩)

/-- `getStationPosition` from src/main.js. -/
def getStationPosition (reg : Registry) (naptanId : String) : Option StationEntry :=
  if naptanId = "" then none else lookupReg reg naptanId.trim

end Underground

namespace Underground

/-- C7: depth resolution is total and follows the fallback chain of
`depthForStation`: a curated anchor value is returned exactly when present;
otherwise the line's heuristic constant from `LINE_DEPTH_M` exactly when the
line is known; otherwise the generic constant 18. -/
theorem depthForStation_fallback_chain (id lineId : String)
    (anchors : List (String × ℚ)) :
    (∀ A, id ≠ "" → lookupAssoc anchors id = some A →
      depthForStation id lineId anchors = A) ∧
    (∀ H, (id = "" ∨ lookupAssoc anchors id = none) → lineId ≠ "" →
      lookupAssoc LINE_DEPTH_M lineId = some H →
      depthForStation id lineId anchors = H) ∧
    ((id = "" ∨ lookupAssoc anchors id = none) →
      (lineId = "" ∨ lookupAssoc LINE_DEPTH_M lineId = none) →
      depthForStation id lineId anchors = 18) := by
  refine ⟨?_, ?_, ?_⟩
  · intro A hne hl
    simp [depthForStation, if_neg hne, hl]
  · intro H hida hlne hlh
    rcases hida with h | h
    · simp [depthForStation, if_pos h, if_neg hlne, hlh]
    · simp [depthForStation, h, if_neg hlne, hlh]
  · intro hida hidl
    rcases hida with h | h <;> rcases hidl with h2 | h2 <;>
      simp [depthForStation, h, h2]

/-- Witness for C7 at concrete inputs: an anchored station returns its anchor
(20.5), an unanchored station on the victoria line returns the heuristic 33,
and an unknown line with no anchor returns 18. -/
theorem depthForStation_fallback_chain_witness :
    depthForStation "A" "victoria" [("A", 41/2)] = 41/2 ∧
    depthForStation "B" "victoria" [("A", 41/2)] = 33 ∧
    depthForStation "B" "elizabeth" [("A", 41/2)] = 18 := by
  refine ⟨?_, ?_, ?_⟩
  · exact (depthForStation_fallback_chain "A" "victoria" [("A", 41/2)]).1
      (41/2) (by decide) rfl
  · exact (depthForStation_fallback_chain "B" "victoria" [("A", 41/2)]).2.1
      33 (Or.inr rfl) (by decide) rfl
  · exact (depthForStation_fallback_chain "B" "elizabeth" [("A", 41/2)]).2.2
      (Or.inr rfl) (Or.inr rfl)

/-- C1: on a branch whose anchored-station list consists of two anchors at
cumulative path positions p1 < p2 with depths d1 < d2, resolving the depth of
an unanchored station lying strictly between them yields exactly the linear
interpolation by arc-length fraction, a value strictly between d1 and d2. -/
theorem depth_interpolation_strict (stops anchors : List (String × ℚ))
    (q : String) (p p1 d1 p2 d2 : ℚ)
    (hq : lookupAssoc anchors q = none)
    (hp : lookupAssoc stops q = some p)
    (hanch : anchoredStops stops anchors = [(p1, d1), (p2, d2)])
    (h1 : p1 < p) (h2 : p < p2) (hd : d1 < d2) :
    buildDepthInterpolator stops anchors q =
      some (d1 + (p - p1) / (p2 - p1) * (d2 - d1)) ∧
    d1 < d1 + (p - p1) / (p2 - p1) * (d2 - d1) ∧
    d1 + (p - p1) / (p2 - p1) * (d2 - d1) < d2 := by
  have hbelow : nearestBelow [(p1, d1), (p2, d2)] p = some (p1, d1) := by
    simp only [nearestBelow, List.foldl_cons, List.foldl_nil]
    rw [if_pos h1.le, if_neg (not_le.mpr h2)]
  have habove : nearestAbove [(p1, d1), (p2, d2)] p = some (p2, d2) := by
    simp only [nearestAbove, List.foldl_cons, List.foldl_nil]
    rw [if_neg (not_le.mpr h1), if_pos h2.le]
  have hfrac0 : 0 < (p - p1) / (p2 - p1) :=
    div_pos (by linarith) (by linarith)
  have hfrac1 : (p - p1) / (p2 - p1) < 1 :=
    (div_lt_one (by linarith)).mpr (by linarith)
  refine ⟨?_, ?_, ?_⟩
  · simp only [buildDepthInterpolator, hq, hp, hanch, hbelow, habove]
    rw [if_pos (h1.trans h2)]
  · nlinarith [mul_pos hfrac0 (sub_pos.mpr hd)]
  · nlinarith [mul_lt_mul_of_pos_right hfrac1 (sub_pos.mpr hd)]

/-- Witness for C1 at a concrete branch: stations a, b, c at cumulative
positions 0, 3, 10 with anchors a = 10 and c = 30; station b resolves to
10 + (3/10)(20) = 16, which lies strictly between 10 and 30. -/
theorem depth_interpolation_strict_witness :
    buildDepthInterpolator [("a", 0), ("b", 3), ("c", 10)]
      [("a", 10), ("c", 30)] "b" = some 16 ∧
    (10 : ℚ) < 16 ∧ (16 : ℚ) < 30 := by
  have h := depth_interpolation_strict [("a", 0), ("b", 3), ("c", 10)]
    [("a", 10), ("c", 30)] "b" 3 0 10 10 30
    rfl rfl rfl
    (by norm_num) (by norm_num) (by norm_num)
  refine ⟨?_, by norm_num, by norm_num⟩
  rw [h.1]
  norm_num

/-- Helper: the single-step wrap of `tick` maps (-1, 2) into [0, 1). -/
theorem wrapU_bounds (u : ℚ) (h1 : -1 < u) (h2 : u < 2) :
    0 ≤ wrapU u ∧ wrapU u < 1 := by
  simp only [wrapU]
  split_ifs with ha hb hb <;> constructor <;> linarith

/-- C5: a tick of a train with strictly positive remaining dwell leaves the
curve parameter (hence the rendered position, a function of it) and the
next-station index unchanged for every elapsed simulated time; the remaining
dwell becomes `max 0 (old - simDt)`, so for nonnegative elapsed time it never
increases, stays nonnegative, and is clamped to exactly 0 once the elapsed
time reaches it. -/
theorem dwell_blocks_motion (tr : TrainState) (simDt : ℚ)
    (hp : 0 < tr.pausedLeft) :
    (tickTrain simDt tr).t = tr.t ∧
    (tickTrain simDt tr).nextStationIndex = tr.nextStationIndex ∧
    (tickTrain simDt tr).pausedLeft = max 0 (tr.pausedLeft - simDt) ∧
    (0 ≤ simDt → (tickTrain simDt tr).pausedLeft ≤ tr.pausedLeft) ∧
    0 ≤ (tickTrain simDt tr).pausedLeft ∧
    (tr.pausedLeft ≤ simDt → (tickTrain simDt tr).pausedLeft = 0) := by
  have ht : tickTrain simDt tr = { tr with pausedLeft := max 0 (tr.pausedLeft - simDt) } := by
    simp only [tickTrain, if_pos hp]
  rw [ht]
  refine ⟨rfl, rfl, rfl, ?_, le_max_left _ _, ?_⟩
  · intro h
    exact max_le hp.le (by linarith)
  · intro h
    exact max_eq_left (by linarith)

/-- Witness for C5 at a concrete dwelling train: with 5 seconds of dwell left
and 2 seconds elapsed, the parameter is unchanged and the dwell drops to
max 0 (5 - 2). -/
theorem dwell_blocks_motion_witness :
    (tickTrain 2 trC5).t = trC5.t ∧
    (tickTrain 2 trC5).pausedLeft = max 0 (trC5.pausedLeft - 2) :=
  ⟨(dwell_blocks_motion trC5 2 (by norm_num [trC5])).1,
   (dwell_blocks_motion trC5 2 (by norm_num [trC5])).2.2.1⟩

/-- C4: wraparound-aware crossing detection.  First, the concrete scenario:
a train with direction +1 at u = 0.98 advancing by 0.05 (new u = 0.03) with
next target at u = 0.01 detects the crossing, snaps to 0.01, starts its
dwell, and advances the target index.  Second, in general the `crossed` test
compares previous u and new u against the target: for direction +1 it is the
plain interval test when the step does not wrap and the wrapped two-sided
test when it does, and symmetrically for direction -1. -/
theorem crossing_detection (prevU newU targetU : ℚ) :
    ((tickTrain 1 trC4).t = 1/100 ∧ (tickTrain 1 trC4).pausedLeft = 22 ∧
      (tickTrain 1 trC4).nextStationIndex = 1) ∧
    (stationCrossed 1 prevU newU targetU = true ↔
      (if prevU ≤ newU then prevU ≤ targetU ∧ targetU ≤ newU
       else targetU ≤ newU ∨ prevU ≤ targetU)) ∧
    (stationCrossed (-1) prevU newU targetU = true ↔
      (if newU ≤ prevU then targetU ≤ prevU ∧ newU ≤ targetU
       else newU ≤ targetU ∨ targetU ≤ prevU)) := by
  refine ⟨⟨?_, ?_, ?_⟩, ?_, ?_⟩
  · norm_num [tickTrain, trC4, stationCrossed, wrapU, duOf]
  · norm_num [tickTrain, trC4, stationCrossed, wrapU, duOf]
  · norm_num [tickTrain, trC4, stationCrossed, wrapU, duOf]
  · have hiff : stationCrossed 1 prevU newU targetU = true ↔
        ((prevU ≤ targetU ∧ targetU ≤ newU) ∨
          (newU < prevU ∧ (targetU ≤ newU ∨ prevU ≤ targetU))) := by
      simp [stationCrossed]
    rw [hiff]
    split_ifs with h
    · constructor
      · rintro (⟨h1, h2⟩ | ⟨h3, h4⟩)
        · exact ⟨h1, h2⟩
        · exact absurd h (not_le.mpr h3)
      · exact fun hh => Or.inl hh
    · constructor
      · rintro (⟨h1, h2⟩ | ⟨h3, h4⟩)
        · exact Or.inl h2
        · exact h4
      · intro hh
        exact Or.inr ⟨not_le.mp h, hh⟩
  · have hiff : stationCrossed (-1) prevU newU targetU = true ↔
        ((targetU ≤ prevU ∧ newU ≤ targetU) ∨
          (prevU < newU ∧ (newU ≤ targetU ∨ targetU ≤ prevU))) := by
      simp [stationCrossed]
    rw [hiff]
    split_ifs with h
    · constructor
      · rintro (⟨h1, h2⟩ | ⟨h3, h4⟩)
        · exact ⟨h1, h2⟩
        · exact absurd h3 (not_lt.mpr h)
      · exact fun hh => Or.inl hh
    · constructor
      · rintro (⟨h1, h2⟩ | ⟨h3, h4⟩)
        · exact Or.inl h2
        · exact h4
      · intro hh
        exact Or.inr ⟨not_le.mp h, hh⟩

/-- C3 counterexample: a cruising train with u = 49/50 in [0, 1), direction
+1, nonnegative elapsed time 1, and sorted station table [0, 1] targeting the
final anchor snaps to u = 1 on this tick, so the updated u is NOT in [0, 1)
as the claim states. -/
theorem train_u_interval_cex :
    (0 ≤ trC3.t ∧ trC3.t < 1) ∧ (0:ℚ) ≤ 1 ∧
    (tickTrain 1 trC3).t = 1 ∧ ¬ ((tickTrain 1 trC3).t < 1) := by
  refine ⟨⟨by norm_num [trC3], by norm_num [trC3]⟩, by norm_num, ?_, ?_⟩ <;>
    norm_num [tickTrain, trC3, stationCrossed, wrapU, duOf]

/-- C3 amended: the initial parameter of `makeTrain` lies in [0, 1); and a
tick whose parameter advance `du` is below 1, on a train with direction ±1,
u in [0, 1], nonnegative elapsed time and cruise speed, a station table
contained in [0, 1], and a valid next-station index, leaves u in the closed
interval [0, 1] — u = 1 exactly is reachable (by snapping to a final station
anchor at u = 1), so only the closed-interval invariant holds. -/
theorem train_u_invariant (tr : TrainState) (simDt : ℚ)
    (hdir : tr.dir = 1 ∨ tr.dir = -1)
    (ht0 : 0 ≤ tr.t) (ht1 : tr.t ≤ 1)
    (hdt : 0 ≤ simDt) (hc : 0 ≤ tr.cruiseMps)
    (hdu : duOf simDt tr < 1)
    (hst : ∀ u ∈ tr.stationUs, 0 ≤ u ∧ u ≤ 1)
    (hidx : tr.nextStationIndex < tr.stationUs.length) :
    (0 ≤ (tickTrain simDt tr).t ∧ (tickTrain simDt tr).t ≤ 1) ∧
    ∀ r phase : ℚ, 0 ≤ r + phase →
      0 ≤ makeTrainInitT r phase ∧ makeTrainInitT r phase < 1 := by
  have hDpos : (0:ℚ) < max (1/1000000) tr.curveLengthM :=
    lt_of_lt_of_le (by norm_num) (le_max_left _ _)
  have hdu0 : 0 ≤ duOf simDt tr :=
    div_nonneg (mul_nonneg hc hdt) hDpos.le
  have htarget : 0 ≤ tr.stationUs.getD tr.nextStationIndex 0 ∧
      tr.stationUs.getD tr.nextStationIndex 0 ≤ 1 := by
    have hmem : tr.stationUs.getD tr.nextStationIndex 0 ∈ tr.stationUs := by
      rw [List.getD_eq_getElem _ _ hidx]
      exact List.getElem_mem hidx
    exact hst _ hmem
  have hu2 : 0 ≤ wrapU (tr.t + (tr.dir : ℚ) * duOf simDt tr) ∧
      wrapU (tr.t + (tr.dir : ℚ) * duOf simDt tr) < 1 := by
    rcases hdir with h1 | h1 <;> rw [h1] <;> push_cast <;>
      apply wrapU_bounds <;> linarith
  constructor
  · simp only [tickTrain]
    by_cases hp : 0 < tr.pausedLeft
    · rw [if_pos hp]
      exact ⟨ht0, ht1⟩
    · rw [if_neg hp]
      by_cases hlen : 0 < tr.stationUs.length
      · rw [if_pos hlen]
        by_cases hcross : stationCrossed tr.dir tr.t
            (wrapU (tr.t + (tr.dir : ℚ) * duOf simDt tr))
            (tr.stationUs.getD tr.nextStationIndex 0) = true
        · rw [if_pos hcross]
          exact ⟨htarget.1, htarget.2⟩
        · rw [if_neg hcross]
          exact ⟨hu2.1, hu2.2.le⟩
      · rw [if_neg hlen]
        exact ⟨hu2.1, hu2.2.le⟩
  · intro r phase h
    have hfl : (⌊r + phase⌋ : ℚ) ≤ r + phase := Int.floor_le _
    have hfu : r + phase < ⌊r + phase⌋ + 1 := Int.lt_floor_add_one _
    constructor
    · simp only [makeTrainInitT]
      linarith
    · simp only [makeTrainInitT]
      linarith

/-- Witness for C3 (amended) at a concrete cruising train and a concrete
random draw: the tick keeps u in [0, 1] and the initial parameter of a train
with random draw 1/3 and phase 1/2 lies in [0, 1). -/
theorem train_u_invariant_witness :
    (0 ≤ (tickTrain 1 trC3w).t ∧ (tickTrain 1 trC3w).t ≤ 1) ∧
    (0 ≤ makeTrainInitT (1/3) (1/2) ∧ makeTrainInitT (1/3) (1/2) < 1) := by
  have h := train_u_invariant trC3w 1 (Or.inl rfl)
    (by norm_num [trC3w]) (by norm_num [trC3w]) (by norm_num)
    (by norm_num [trC3w]) (by norm_num [trC3w, duOf])
    (by
      intro u hu
      simp only [trC3w, List.mem_cons, List.not_mem_nil, or_false] at hu
      rcases hu with rfl | rfl | rfl <;> norm_num)
    (by norm_num [trC3w])
  exact ⟨h.1, h.2 (1/3) (1/2) (by norm_num)⟩

/-- Helper: folding `pickLonger` never decreases the accumulator's length. -/
theorem optLen_foldl_pickLonger_mono (l : List RouteSeq) (b : Option RouteSeq) :
    optLen b ≤ optLen (l.foldl pickLonger b) := by
  induction l generalizing b with
  | nil => exact le_refl _
  | cons a t ih =>
    refine le_trans ?_ (ih (pickLonger b a))
    unfold pickLonger
    split_ifs with h
    · exact h.le
    · exact le_refl _

/-- Helper: the result of folding `pickLonger` is at least as long as every
element of the folded list. -/
theorem seqLen_le_foldl_pickLonger (l : List RouteSeq) (b : Option RouteSeq)
    (s : RouteSeq) (hs : s ∈ l) :
    seqLen s ≤ optLen (l.foldl pickLonger b) := by
  induction l generalizing b with
  | nil => cases hs
  | cons a t ih =>
    rcases List.mem_cons.mp hs with rfl | hmem
    · refine le_trans ?_ (optLen_foldl_pickLonger_mono t (pickLonger b s))
      unfold pickLonger
      split_ifs with h
      · exact le_refl _
      · exact not_lt.mp h
    · exact ih (pickLonger b a) hmem

/-- Helper: folding `pickLonger` yields the start accumulator or a member of
the list. -/
theorem foldl_pickLonger_mem (l : List RouteSeq) (b : Option RouteSeq) :
    l.foldl pickLonger b = b ∨ ∃ s, s ∈ l ∧ l.foldl pickLonger b = some s := by
  induction l generalizing b with
  | nil => exact Or.inl rfl
  | cons a t ih =>
    rcases ih (pickLonger b a) with h | ⟨s, hs, h⟩
    · by_cases hc : optLen b < seqLen a
      · refine Or.inr ⟨a, List.mem_cons_self _ _, ?_⟩
        rw [List.foldl_cons, h]
        unfold pickLonger
        rw [if_pos hc]
      · refine Or.inl ?_
        rw [List.foldl_cons, h]
        unfold pickLonger
        rw [if_neg hc]
    · exact Or.inr ⟨s, List.mem_cons_of_mem _ hs, by rw [List.foldl_cons]; exact h⟩

/-- C2 counterexample: two available (nonempty-stop, non-inbound) sequences,
yet the extractor returns a single branch — the longest sequence — rather
than falling back to all available sequences as branches. -/
theorem extractBranches_cex :
    (extractBranches cexSeqs).1 = [[spC, spD, spE]] ∧
    (cexSeqs.filter (fun s => decide (0 < seqLen s))).length = 2 ∧
    (extractBranches cexSeqs).1.length ≠
      (cexSeqs.filter (fun s => decide (0 < seqLen s))).length := by
  refine ⟨rfl, rfl, by decide⟩

/-- C2 amended: when no sequence is tagged with the canonical direction
(inbound), the extractor considers every sequence with a nonempty stop list
and selects the single longest one (ties keep the earliest) as the sole
branch and combined stop list; if no sequence has a nonempty stop list it
returns the empty result; it never fails outright (it is a total function). -/
theorem extractBranches_fallback (sequences : List RouteSeq)
    (hin : sequences.filter (fun s => s.direction == "inbound") = []) :
    (sequences.filter (fun s => decide (0 < seqLen s)) = [] →
      extractBranches sequences = ([], [])) ∧
    (∀ s0, s0 ∈ sequences → 0 < seqLen s0 →
      ∃ s, s ∈ sequences ∧ 0 < seqLen s ∧
        extractBranches sequences = ([s.stopPoint.getD []], s.stopPoint.getD []) ∧
        ∀ s2 ∈ sequences, seqLen s2 ≤ seqLen s) := by
  constructor
  · intro hall
    simp only [extractBranches]
    rw [hin, hall]
    simp
  · intro s0 hs0 hlen0
    have hs0all : s0 ∈ sequences.filter (fun s => decide (0 < seqLen s)) :=
      List.mem_filter.mpr ⟨hs0, by simpa using hlen0⟩
    obtain h | ⟨s, hs, hfold⟩ :=
      foldl_pickLonger_mem (sequences.filter (fun s => decide (0 < seqLen s))) none
    · have hle := seqLen_le_foldl_pickLonger
        (sequences.filter (fun s => decide (0 < seqLen s))) none s0 hs0all
      rw [h] at hle
      simp only [optLen] at hle
      omega
    · have hsmem : s ∈ sequences := (List.mem_filter.mp hs).1
      have hslen : 0 < seqLen s := by
        have := (List.mem_filter.mp hs).2
        simpa using this
      refine ⟨s, hsmem, hslen, ?_, ?_⟩
      · have hne : (sequences.filter (fun s => decide (0 < seqLen s))).isEmpty = false := by
          cases hemp : (sequences.filter (fun s => decide (0 < seqLen s))).isEmpty
          · rfl
          · rw [List.isEmpty_iff] at hemp
            rw [hemp] at hs0all
            cases hs0all
        simp only [extractBranches]
        rw [hin, hfold, hne]
        simp
      · intro s2 hs2
        by_cases h2 : 0 < seqLen s2
        · have hmem2 : s2 ∈ sequences.filter (fun s => decide (0 < seqLen s)) :=
            List.mem_filter.mpr ⟨hs2, by simpa using h2⟩
          have hle := seqLen_le_foldl_pickLonger
            (sequences.filter (fun s => decide (0 < seqLen s))) none s2 hmem2
          rw [hfold] at hle
          simpa [optLen] using hle
        · omega

/-- Witness for C2 (amended) at the concrete sequences: the longer outbound
sequence is selected as the sole branch. -/
theorem extractBranches_fallback_witness :
    ∃ s, s ∈ cexSeqs ∧ 0 < seqLen s ∧
      extractBranches cexSeqs = ([s.stopPoint.getD []], s.stopPoint.getD []) ∧
      ∀ s2 ∈ cexSeqs, seqLen s2 ≤ seqLen s :=
  (extractBranches_fallback cexSeqs rfl).2
    ⟨"outbound", some [spA, spB]⟩ (List.mem_cons_self _ _) (by decide)

/-- Helper: the cumulative loop emits one entry per remaining point. -/
theorem cumAux_length {P : Type} (dist : P → P → ℚ) (l : List P) :
    ∀ (prev : P) (acc : ℚ), (cumAux dist prev acc l).length = l.length := by
  induction l with
  | nil => intro prev acc; rfl
  | cons p rest ih =>
    intro prev acc
    simp [cumAux, ih p]

/-- Helper: with a nonnegative distance, every cumulative entry dominates the
running total it started from. -/
theorem cumAux_nonneg {P : Type} (dist : P → P → ℚ)
    (hd : ∀ a b, 0 ≤ dist a b) (l : List P) :
    ∀ (prev : P) (acc : ℚ), ∀ x ∈ cumAux dist prev acc l, acc ≤ x := by
  induction l with
  | nil => intro prev acc x hx; cases hx
  | cons p rest ih =>
    intro prev acc x hx
    rcases List.mem_cons.mp hx with rfl | hx
    · exact le_add_of_nonneg_right (hd p prev)
    · exact le_trans (le_add_of_nonneg_right (hd p prev)) (ih p (acc + dist p prev) x hx)

/-- Helper: with a nonnegative distance, the cumulative entries ascend from
the running total. -/
theorem cumAux_chain {P : Type} (dist : P → P → ℚ)
    (hd : ∀ a b, 0 ≤ dist a b) (l : List P) :
    ∀ (prev : P) (acc : ℚ), List.Chain (· ≤ ·) acc (cumAux dist prev acc l) := by
  induction l with
  | nil => intro prev acc; exact List.Chain.nil
  | cons p rest ih =>
    intro prev acc
    exact List.Chain.cons (le_add_of_nonneg_right (hd p prev)) (ih p (acc + dist p prev))

/-- Helper: when consecutive points are all at distance d, consecutive
cumulative entries differ by exactly d. -/
theorem cumAux_chain_diff {P : Type} (dist : P → P → ℚ) (d : ℚ) (l : List P) :
    ∀ (prev : P) (acc : ℚ), List.Chain (fun a b => dist b a = d) prev l →
      List.Chain (fun a b => b - a = d) acc (cumAux dist prev acc l) := by
  induction l with
  | nil => intro prev acc _; exact List.Chain.nil
  | cons p rest ih =>
    intro prev acc h
    rcases List.chain_cons.mp h with ⟨hdp, hrest⟩
    simp only [cumAux, hdp]
    exact List.Chain.cons (by ring) (ih p (acc + d) hrest)

/-- Helper: when consecutive points are all at distance d, the final running
total is the point count times d. -/
theorem cumAux_getLastD_of_chain {P : Type} (dist : P → P → ℚ) (d : ℚ)
    (l : List P) :
    ∀ (prev : P) (acc : ℚ), List.Chain (fun a b => dist b a = d) prev l →
      (cumAux dist prev acc l).getLastD acc = acc + l.length * d := by
  induction l with
  | nil => intro prev acc _; simp [cumAux]
  | cons p rest ih =>
    intro prev acc h
    rcases List.chain_cons.mp h with ⟨hdp, hrest⟩
    simp only [cumAux, hdp, List.getLastD_cons, List.length_cons]
    rw [ih p (acc + d) hrest]
    push_cast
    ring

/-- Helper: the last entry with default is either the default or a member. -/
theorem getLastD_cases (l : List ℚ) : ∀ d : ℚ, l.getLastD d = d ∨ l.getLastD d ∈ l := by
  induction l with
  | nil => intro d; exact Or.inl rfl
  | cons a t ih =>
    intro d
    rw [List.getLastD_cons]
    rcases ih a with h | h
    · rw [h]
      exact Or.inr (List.mem_cons_self a t)
    · exact Or.inr (List.mem_cons_of_mem a h)

/-- Helper: ascending-from-zero chains survive division by a positive total. -/
theorem chain_div_of_chain (c : ℚ) (hc : 0 < c) (a : ℚ) (l : List ℚ)
    (h : List.Chain (· ≤ ·) a l) :
    List.Chain (· ≤ ·) (a / c) (l.map (fun x => x / c)) := by
  induction h with
  | nil => exact List.Chain.nil
  | @cons a b t hab _ ih =>
    exact List.Chain.cons (div_le_div_of_nonneg_right hab hc.le) ih

/-- Helper: constant-difference chains divide to constant-difference chains. -/
theorem chain_diff_div (c e : ℚ) (a : ℚ) (l : List ℚ)
    (h : List.Chain (fun x y => y - x = e) a l) :
    List.Chain (fun x y => y - x = e / c) (a / c) (l.map (fun x => x / c)) := by
  induction h with
  | nil => exact List.Chain.nil
  | @cons a b t hab _ ih =>
    refine List.Chain.cons ?_ ih
    rw [div_sub_div_same, hab]

/-- Helper: a chain starting at the head is a link chain of the cons list. -/
theorem chain'_cons_of_chain {α : Type} {R : α → α → Prop} {a : α} {l : List α}
    (h : List.Chain R a l) : List.Chain' R (a :: l) := h

/-- Helper: a constant-zero list ascends from 0. -/
theorem chain_zero_map {α : Type} (l : List α) :
    List.Chain (· ≤ ·) (0 : ℚ) (l.map (fun _ => (0 : ℚ))) := by
  induction l with
  | nil => exact List.Chain.nil
  | cons a t ih => exact List.Chain.cons le_rfl ih

/-- Helper: a constant-zero list is weakly ascending. -/
theorem chain'_map_zero {α : Type} (l : List α) :
    List.Chain' (· ≤ ·) (l.map (fun _ => (0 : ℚ))) := by
  cases l with
  | nil => simp
  | cons a t => exact chain'_cons_of_chain (chain_zero_map t)

/-- Helper: mapping commutes with the optional last element. -/
theorem getLast?_map {α β : Type} (f : α → β) (l : List α) :
    (l.map f).getLast? = l.getLast?.map f := by
  induction l with
  | nil => rfl
  | cons a t ih =>
    cases t with
    | nil => rfl
    | cons b t2 =>
      rw [List.map_cons, List.map_cons, List.getLast?_cons_cons,
        List.getLast?_cons_cons, ← List.map_cons]
      exact ih

/-- C8: the station u-table is the cumulative distances divided by the total
path length: it has one entry per point, starts at exactly 0, ends at exactly
1 when the total is positive, is monotonically non-decreasing for any
nonnegative distance, collapses to all zeros when the total path length is
zero, and for equally spaced stations (consecutive distance d > 0) the
u-values are evenly spaced with constant gap 1/(N-1). -/
theorem stationUs_arcLength {P : Type} (dist : P → P → ℚ) (pts : List P)
    (hd : ∀ a b, 0 ≤ dist a b) :
    (stationUsFromPolyline dist pts).length = pts.length ∧
    (pts ≠ [] → (stationUsFromPolyline dist pts).head? = some 0) ∧
    (0 < (stationCum dist pts).getLastD 0 →
      stationUsFromPolyline dist pts =
        (stationCum dist pts).map (fun c => c / (stationCum dist pts).getLastD 0)) ∧
    (0 < (stationCum dist pts).getLastD 0 →
      (stationUsFromPolyline dist pts).getLast? = some 1) ∧
    List.Chain' (· ≤ ·) (stationUsFromPolyline dist pts) ∧
    ((stationCum dist pts).getLastD 0 = 0 →
      ∀ u ∈ stationUsFromPolyline dist pts, u = 0) ∧
    (∀ d p rest, 0 < d → pts = p :: rest → rest ≠ [] →
      List.Chain (fun a b => dist b a = d) p rest →
      (stationUsFromPolyline dist pts).head? = some 0 ∧
      List.Chain' (fun a b => b - a = 1 / ((pts.length : ℚ) - 1))
        (stationUsFromPolyline dist pts)) := by
  have hunfold : stationUsFromPolyline dist pts =
      if (stationCum dist pts).getLastD 0 ≤ 0 then pts.map (fun _ => 0)
      else (stationCum dist pts).map
        (fun c => c / (stationCum dist pts).getLastD 0) := rfl
  refine ⟨?_, ?_, ?_, ?_, ?_, ?_, ?_⟩
  · by_cases hle : (stationCum dist pts).getLastD 0 ≤ 0
    · rw [hunfold, if_pos hle, List.length_map]
    · rw [hunfold, if_neg hle, List.length_map]
      cases pts with
      | nil => exact absurd (by simp [stationCum]) hle
      | cons p rest => simp [stationCum, cumAux_length]
  · intro hne
    cases pts with
    | nil => exact absurd rfl hne
    | cons p rest =>
      by_cases hle : (stationCum dist (p :: rest)).getLastD 0 ≤ 0
      · rw [hunfold, if_pos hle]
        simp
      · rw [hunfold, if_neg hle]
        simp [stationCum]
  · intro hT
    rw [hunfold, if_neg (not_le.mpr hT)]
  · intro hT
    rw [hunfold, if_neg (not_le.mpr hT)]
    have hne : stationCum dist pts ≠ [] := by
      cases pts <;> simp [stationCum]
    have hlast : (stationCum dist pts).getLast? =
        some ((stationCum dist pts).getLastD 0) := by
      rw [List.getLastD_eq_getLast?]
      cases hcl : (stationCum dist pts).getLast? with
      | none => exact absurd (List.getLast?_eq_none_iff.mp hcl) hne
      | some x => rfl
    rw [getLast?_map, hlast]
    simp only [Option.map_some']
    rw [div_self (ne_of_gt hT)]
  · by_cases hle : (stationCum dist pts).getLastD 0 ≤ 0
    · rw [hunfold, if_pos hle]
      exact chain'_map_zero pts
    · rw [hunfold, if_neg hle]
      cases pts with
      | nil => exact absurd (by simp [stationCum]) hle
      | cons p rest =>
        simp only [stationCum, List.map_cons]
        exact chain'_cons_of_chain
          (chain_div_of_chain _ (not_le.mp hle) 0 _ (cumAux_chain dist hd rest p 0))
  · intro hT0 u hu
    rw [hunfold, if_pos (le_of_eq hT0)] at hu
    rcases List.mem_map.mp hu with ⟨x, _, rfl⟩
    rfl
  · intro d p rest hdpos hpts hrest hchain
    subst hpts
    have hT : (stationCum dist (p :: rest)).getLastD 0 = rest.length * d := by
      simp only [stationCum, List.getLastD_cons]
      rw [cumAux_getLastD_of_chain dist d rest p 0 hchain]
      ring
    have hLpos : 0 < (rest.length : ℚ) := by
      exact_mod_cast List.length_pos.mpr hrest
    have hTpos : 0 < (stationCum dist (p :: rest)).getLastD 0 := by
      rw [hT]
      exact mul_pos hLpos hdpos
    have heq : d / (stationCum dist (p :: rest)).getLastD 0 =
        1 / (((p :: rest).length : ℚ) - 1) := by
      rw [hT]
      have hlen : (((p :: rest).length : ℚ) - 1) = (rest.length : ℚ) := by
        simp only [List.length_cons]
        push_cast
        ring
      have hd0 : d ≠ 0 := ne_of_gt hdpos
      have hL0 : (rest.length : ℚ) ≠ 0 := ne_of_gt hLpos
      rw [hlen]
      field_simp
      ring
    constructor
    · rw [hunfold, if_neg (not_le.mpr hTpos)]
      simp [stationCum]
    · rw [hunfold, if_neg (not_le.mpr hTpos)]
      simp only [stationCum, List.map_cons]
      apply chain'_cons_of_chain
      simp only [← heq]
      exact chain_diff_div _ d 0 _ (cumAux_chain_diff dist d rest p 0 hchain)

/-- Witness for C8 at the concrete polyline [0, 1, 2] on the rational line
with absolute-value distance: the u-table is [0, 1/2, 1], starting at 0,
ending at 1, ascending, and evenly spaced with gap 1/2. -/
theorem stationUs_arcLength_witness :
    stationUsFromPolyline qdist [0, 1, 2] = [0, 1/2, 1] ∧
    (stationUsFromPolyline qdist [0, 1, 2]).head? = some 0 ∧
    (stationUsFromPolyline qdist [0, 1, 2]).getLast? = some 1 ∧
    List.Chain' (· ≤ ·) (stationUsFromPolyline qdist [0, 1, 2]) ∧
    List.Chain' (fun a b => b - a = 1 / ((([0, 1, 2] : List ℚ).length : ℚ) - 1))
      (stationUsFromPolyline qdist [0, 1, 2]) := by
  have habs : ∀ a b : ℚ, 0 ≤ qdist a b := fun a b => abs_nonneg _
  have h := stationUs_arcLength qdist [0, 1, 2] habs
  have hT : 0 < (stationCum qdist [0, 1, 2]).getLastD 0 := by
    norm_num [stationCum, cumAux, qdist]
  have hchain : List.Chain (fun a b => qdist b a = 1) 0 [1, 2] :=
    List.Chain.cons (by norm_num [qdist])
      (List.Chain.cons (by norm_num [qdist]) List.Chain.nil)
  refine ⟨?_, h.2.1 (by simp), h.2.2.2.1 hT, h.2.2.2.2.1,
    (h.2.2.2.2.2.2 1 0 [1, 2] one_pos rfl (by simp) hchain).2⟩
  norm_num [stationUsFromPolyline, stationCum, cumAux, qdist]

/-- Helper: the length is nonnegative. -/
theorem vlen_nonneg (v : Vec3) : 0 ≤ vlen v := Real.sqrt_nonneg _

/-- Helper: the length vanishes exactly on the zero vector. -/
theorem vlen_eq_zero_iff (v : Vec3) : vlen v = 0 ↔ v = vzero := by
  constructor
  · intro h
    have h0 : 0 ≤ v.x^2 + v.y^2 + v.z^2 := by positivity
    have hsum : v.x^2 + v.y^2 + v.z^2 = 0 := (Real.sqrt_eq_zero h0).mp h
    have hx : v.x = 0 := by nlinarith [sq_nonneg v.x, sq_nonneg v.y, sq_nonneg v.z]
    have hy : v.y = 0 := by nlinarith [sq_nonneg v.x, sq_nonneg v.y, sq_nonneg v.z]
    have hz : v.z = 0 := by nlinarith [sq_nonneg v.x, sq_nonneg v.y, sq_nonneg v.z]
    ext
    · rw [hx]; rfl
    · rw [hy]; rfl
    · rw [hz]; rfl
  · rintro rfl
    simp [vlen, vzero]

/-- Helper: the length scales by the absolute scalar. -/
theorem vlen_smul (c : ℝ) (v : Vec3) : vlen (vsmul c v) = |c| * vlen v := by
  unfold vlen vsmul
  rw [show (c * v.x)^2 + (c * v.y)^2 + (c * v.z)^2 = c^2 * (v.x^2 + v.y^2 + v.z^2)
    by ring]
  rw [Real.sqrt_mul (sq_nonneg c), Real.sqrt_sq_eq_abs]

/-- Helper: normalization of a vector of nonzero length yields a unit
vector. -/
theorem vlen_vnormalize (v : Vec3) (h : vlen v ≠ 0) : vlen (vnormalize v) = 1 := by
  have hpos : 0 < vlen v := lt_of_le_of_ne (vlen_nonneg v) (Ne.symm h)
  unfold vnormalize
  rw [vlen_smul, if_neg h, abs_of_pos (by positivity)]
  field_simp

/-- Helper: a unit vector normalizes to itself. -/
theorem vnormalize_of_unit (v : Vec3) (h : vlen v = 1) : vnormalize v = v := by
  unfold vnormalize
  rw [h]
  norm_num
  ext <;> simp [vsmul]

/-- Helper: the zero vector normalizes to itself (the `|| 1` guard of
`THREE.Vector3.normalize`). -/
theorem vnormalize_zero : vnormalize vzero = vzero := by
  unfold vnormalize
  ext <;> simp [vsmul, vzero]

/-- Helper: the left offset point at a valid index. -/
theorem leftOffsetPoints_getD (pts : List Vec3) (s : ℝ) (i : ℕ)
    (hi : i < pts.length) :
    (leftOffsetPoints pts s).getD i vzero =
      vadd (pts.getD i vzero) (vsmul s (normalAt pts i)) := by
  unfold leftOffsetPoints
  rw [List.getD_eq_getElem _ _ (by simpa using hi)]
  simp

/-- Helper: the right offset point at a valid index. -/
theorem rightOffsetPoints_getD (pts : List Vec3) (s : ℝ) (i : ℕ)
    (hi : i < pts.length) :
    (rightOffsetPoints pts s).getD i vzero =
      vadd (pts.getD i vzero) (vsmul (-s) (normalAt pts i)) := by
  unfold rightOffsetPoints
  rw [List.getD_eq_getElem _ _ (by simpa using hi)]
  simp

/-- Helper: difference of an offset point and its base point. -/
theorem vsub_vadd_cancel (p w : Vec3) : vsub (vadd p w) p = w := by
  ext <;> simp [vsub, vadd]

/-- C9: at every index whose horizontal neighbor-difference tangent is
nonzero, the left and right offset control points lie at horizontal distance
exactly s (s ≥ 0) on opposite sides of the centerline point, with zero
vertical displacement, along a direction perpendicular to the horizontal
tangent — even when the input path has vertical variation. -/
theorem offset_symmetry (pts : List Vec3) (s : ℝ) (i : ℕ)
    (hi : i < pts.length) (hs : 0 ≤ s)
    (hnz : ¬ ((rawTangentAt pts i).x = 0 ∧ (rawTangentAt pts i).z = 0)) :
    vlen (vsub ((leftOffsetPoints pts s).getD i vzero) (pts.getD i vzero)) = s ∧
    vlen (vsub ((rightOffsetPoints pts s).getD i vzero) (pts.getD i vzero)) = s ∧
    vsub ((leftOffsetPoints pts s).getD i vzero) (pts.getD i vzero) =
      vsmul (-1) (vsub ((rightOffsetPoints pts s).getD i vzero) (pts.getD i vzero)) ∧
    ((leftOffsetPoints pts s).getD i vzero).y = (pts.getD i vzero).y ∧
    ((rightOffsetPoints pts s).getD i vzero).y = (pts.getD i vzero).y ∧
    vdot (vsub ((leftOffsetPoints pts s).getD i vzero) (pts.getD i vzero))
      (tangentAt pts i) = 0 := by
  have hh3 : (⟨(rawTangentAt pts i).x, 0, (rawTangentAt pts i).z⟩ : Vec3) ≠ vzero := by
    intro hEq
    apply hnz
    have hx := congrArg Vec3.x hEq
    have hz := congrArg Vec3.z hEq
    exact ⟨hx, hz⟩
  have hlh : vlen (⟨(rawTangentAt pts i).x, 0, (rawTangentAt pts i).z⟩ : Vec3) ≠ 0 :=
    fun h0 => hh3 ((vlen_eq_zero_iff _).mp h0)
  have ht_len : vlen (tangentAt pts i) = 1 := vlen_vnormalize _ hlh
  have ht_y : (tangentAt pts i).y = 0 := by
    unfold tangentAt vnormalize vsmul
    simp
  have hn0len : vlen (⟨-(tangentAt pts i).z, 0, (tangentAt pts i).x⟩ : Vec3) = 1 := by
    unfold vlen
    have : (-(tangentAt pts i).z)^2 + (0:ℝ)^2 + (tangentAt pts i).x^2 =
        (tangentAt pts i).x^2 + (tangentAt pts i).y^2 + (tangentAt pts i).z^2 := by
      rw [ht_y]
      ring
    rw [this]
    exact ht_len
  have hnorm : normalAt pts i = ⟨-(tangentAt pts i).z, 0, (tangentAt pts i).x⟩ := by
    unfold normalAt
    exact vnormalize_of_unit _ hn0len
  have hL := leftOffsetPoints_getD pts s i hi
  have hR := rightOffsetPoints_getD pts s i hi
  have hny : (normalAt pts i).y = 0 := by rw [hnorm]
  have hnlen : vlen (normalAt pts i) = 1 := by rw [hnorm]; exact hn0len
  refine ⟨?_, ?_, ?_, ?_, ?_, ?_⟩
  · rw [hL, vsub_vadd_cancel, vlen_smul, hnlen, mul_one, abs_of_nonneg hs]
  · rw [hR, vsub_vadd_cancel, vlen_smul, hnlen, mul_one, abs_neg, abs_of_nonneg hs]
  · rw [hL, hR, vsub_vadd_cancel, vsub_vadd_cancel]
    ext <;> simp [vsmul]
  · rw [hL]
    simp [vadd, vsmul, hny]
  · rw [hR]
    simp [vadd, vsmul, hny]
  · rw [hL, vsub_vadd_cancel, hnorm]
    unfold vdot vsmul
    simp only
    ring

/-- Witness for C9 at the concrete centerline [(0,0,0), (1,2,0)] (horizontal
step with vertical variation) and half-spacing 3, index 0. -/
theorem offset_symmetry_witness :
    vlen (vsub ((leftOffsetPoints ptsC9 3).getD 0 vzero) (ptsC9.getD 0 vzero)) = 3 ∧
    vlen (vsub ((rightOffsetPoints ptsC9 3).getD 0 vzero) (ptsC9.getD 0 vzero)) = 3 ∧
    ((leftOffsetPoints ptsC9 3).getD 0 vzero).y = (ptsC9.getD 0 vzero).y := by
  have h := offset_symmetry ptsC9 3 0 (by norm_num [ptsC9]) (by norm_num)
    (by
      intro hand
      have hx := hand.1
      norm_num [rawTangentAt, vsub, vzero, ptsC9] at hx)
  exact ⟨h.1, h.2.1, h.2.2.2.1⟩

/-- C10: at an index whose two clamped neighbor points coincide horizontally
(zero horizontal tangent, e.g. duplicated stops or a purely vertical step),
the normalized tangent and normal degenerate to the zero vector under the
`|| 1` guard of `normalize`, so both offset control points coincide exactly
with the centerline point — finite coordinates, never NaN. -/
theorem offset_degenerate (pts : List Vec3) (s : ℝ) (i : ℕ)
    (hi : i < pts.length)
    (hx : (rawTangentAt pts i).x = 0) (hz : (rawTangentAt pts i).z = 0) :
    (leftOffsetPoints pts s).getD i vzero = pts.getD i vzero ∧
    (rightOffsetPoints pts s).getD i vzero = pts.getD i vzero := by
  have h3 : (⟨(rawTangentAt pts i).x, 0, (rawTangentAt pts i).z⟩ : Vec3) = vzero := by
    rw [hx, hz]
    rfl
  have ht : tangentAt pts i = vzero := by
    unfold tangentAt
    rw [h3, vnormalize_zero]
  have hn : normalAt pts i = vzero := by
    unfold normalAt
    rw [ht]
    have : (⟨-(vzero).z, 0, (vzero).x⟩ : Vec3) = vzero := by
      ext <;> simp [vzero]
    rw [this, vnormalize_zero]
  rw [leftOffsetPoints_getD pts s i hi, rightOffsetPoints_getD pts s i hi, hn]
  constructor <;> (ext <;> simp [vadd, vsmul, vzero])

/-- Witness for C10 at the concrete centerline [(0,0,0), (0,5,0)] (a purely
vertical step), half-spacing 1, index 0: both offset points equal the
centerline point. -/
theorem offset_degenerate_witness :
    (leftOffsetPoints ptsC10 1).getD 0 vzero = ptsC10.getD 0 vzero ∧
    (rightOffsetPoints ptsC10 1).getD 0 vzero = ptsC10.getD 0 vzero :=
  offset_degenerate ptsC10 1 0 (by norm_num [ptsC10])
    (by norm_num [rawTangentAt, vsub, vzero, ptsC10])
    (by norm_num [rawTangentAt, vsub, vzero, ptsC10])

/-- C6: station registration is first-wins idempotent.  Registering a fresh
nonempty id stores and returns the projected position computed from the
first coordinates; a second registration with different coordinates returns
that same entry, leaves the registry unchanged, and lookup after either call
returns the same entry. -/
theorem register_first_wins (hs : ℝ) (reg : Registry) (id : String)
    (lat1 lon1 lat2 lon2 : ℝ)
    (hid : id ≠ "") (hfresh : lookupReg reg id.trim = none)
    (_hdiff : (lat1, lon1) ≠ (lat2, lon2)) :
    (registerStationPosition hs reg id lat1 lon1).2 =
      some ⟨(llToXZ hs lat1 lon1).1, (llToXZ hs lat1 lon1).2, lat1, lon1⟩ ∧
    (registerStationPosition hs (registerStationPosition hs reg id lat1 lon1).1
        id lat2 lon2).2 =
      (registerStationPosition hs reg id lat1 lon1).2 ∧
    (registerStationPosition hs (registerStationPosition hs reg id lat1 lon1).1
        id lat2 lon2).1 =
      (registerStationPosition hs reg id lat1 lon1).1 ∧
    getStationPosition (registerStationPosition hs reg id lat1 lon1).1 id =
      (registerStationPosition hs reg id lat1 lon1).2 ∧
    getStationPosition (registerStationPosition hs
        (registerStationPosition hs reg id lat1 lon1).1 id lat2 lon2).1 id =
      (registerStationPosition hs reg id lat1 lon1).2 := by
  have h1 : registerStationPosition hs reg id lat1 lon1 =
      ((id.trim,
          ⟨(llToXZ hs lat1 lon1).1, (llToXZ hs lat1 lon1).2, lat1, lon1⟩) :: reg,
        some ⟨(llToXZ hs lat1 lon1).1, (llToXZ hs lat1 lon1).2, lat1, lon1⟩) := by
    unfold registerStationPosition
    rw [if_neg hid, hfresh]
  have hlook : lookupReg
      ((id.trim,
          ⟨(llToXZ hs lat1 lon1).1, (llToXZ hs lat1 lon1).2, lat1, lon1⟩) :: reg)
      id.trim =
      some ⟨(llToXZ hs lat1 lon1).1, (llToXZ hs lat1 lon1).2, lat1, lon1⟩ := by
    unfold lookupReg
    rw [List.find?_cons_of_pos _ (by simp)]
    rfl
  have h2 : registerStationPosition hs (registerStationPosition hs reg id lat1 lon1).1
      id lat2 lon2 =
      ((registerStationPosition hs reg id lat1 lon1).1,
        some ⟨(llToXZ hs lat1 lon1).1, (llToXZ hs lat1 lon1).2, lat1, lon1⟩) := by
    rw [h1]
    unfold registerStationPosition
    rw [if_neg hid, hlook]
  refine ⟨by rw [h1], by rw [h2, h1], by rw [h2], ?_, ?_⟩
  · rw [h1]
    unfold getStationPosition
    rw [if_neg hid]
    exact hlook
  · rw [h2, h1]
    unfold getStationPosition
    rw [if_neg hid]
    exact hlook

/-- Witness for C6 at a concrete registry: id "A" registered at (10, 20) and
re-registered at (30, 40) keeps the first projected entry. -/
theorem register_first_wins_witness :
    (registerStationPosition 1 ([] : Registry) "A" 10 20).2 =
      some ⟨(llToXZ 1 10 20).1, (llToXZ 1 10 20).2, 10, 20⟩ ∧
    (registerStationPosition 1
        (registerStationPosition 1 ([] : Registry) "A" 10 20).1 "A" 30 40).2 =
      (registerStationPosition 1 ([] : Registry) "A" 10 20).2 ∧
    getStationPosition (registerStationPosition 1 ([] : Registry) "A" 10 20).1 "A" =
      (registerStationPosition 1 ([] : Registry) "A" 10 20).2 := by
  have h := register_first_wins 1 ([] : Registry) "A" 10 20 30 40
    (by decide) rfl
    (by
      intro hEq
      have := congrArg Prod.fst hEq
      norm_num at this)
  exact ⟨h.1, h.2.1, h.2.2.2.1⟩

end Underground
